import Mathlib

/-!
Verification of the text-boundary-aware lexical layer of `effect-json`:
the streaming line segmenter (`LineBuffer` in `backends/jsonLines.ts`),
the comment stripper and position locator (`utils/string.ts`), and the
batch JSON-Lines parser (`parseBatch`).

Text is modelled as `List Char`.  Every definition is a direct
translation of the corresponding TypeScript function.
-/

namespace EffectJson

/-- The whitespace characters recognised by JavaScript `String.trim`
that are relevant here (space, tab, newline, carriage return, vertical
tab, form feed, no-break space, BOM). -/
def isJsWs (c : Char) : Bool :=
  c = ' ' || c = '\t' || c = '\n' || c = '\r' ||
  c = Char.ofNat 11 || c = Char.ofNat 12 ||
  c = Char.ofNat 160 || c = Char.ofNat 65279

/-- Model of JavaScript `String.prototype.trim`. -/
def jsTrim (l : List Char) : List Char :=
  ((l.dropWhile isJsWs).reverse.dropWhile isJsWs).reverse

/-- Model of JavaScript `"…".split("\n")` on character lists. -/
def splitNl : List Char → List (List Char)
  | [] => [[]]
  | c :: cs =>
    if c = '\n' then [] :: splitNl cs
    else
      match splitNl cs with
      | [] => [[c]]
      | l :: ls => (c :: l) :: ls

/-- Model of JavaScript `lastIndexOf("\n")` (`none` when absent). -/
def lastIdxNl : List Char → Option Nat
  | [] => none
  | c :: cs =>
    match lastIdxNl cs with
    | some i => some (i + 1)
    | none => if c = '\n' then some 0 else none

/-- A record emitted by the streaming segmenter:
`{ line: string; lineNumber: number }` in `jsonLines.ts`. -/
structure LineRec where
  line : List Char
  lineNumber : Nat
deriving DecidableEq, Repr

/-- The `for (const line of splitLines)` loop of
`LineBuffer.processChunk` (jsonLines.ts lines 148-153): skip lines that
are blank after trimming, otherwise increment the counter and push the
raw line. Returns the emitted records and the final counter. -/
def emitLines (n : Nat) : List (List Char) → List LineRec × Nat
  | [] => ([], n)
  | l :: ls =>
    if 0 < (jsTrim l).length then
      let p := emitLines (n + 1) ls
      (⟨l, n + 1⟩ :: p.1, p.2)
    else emitLines n ls

/-- The mutable state of `class LineBuffer`:
`private buffer = ""; private lineNumber = 0;`. -/
structure LineBuffer where
  buffer : List Char
  lineNumber : Nat
deriving DecidableEq, Repr

/-- `LineBuffer.processChunk` (jsonLines.ts lines 130-156): append the
chunk to the buffer; if the buffer holds no `'\n'` emit nothing; else
split everything up to the last `'\n'` into lines, keep the remainder
buffered, and emit the non-blank lines with fresh line numbers. -/
def processChunk (lb : LineBuffer) (chunk : List Char) :
    List LineRec × LineBuffer :=
  let buf := lb.buffer ++ chunk
  match lastIdxNl buf with
  | none => ([], ⟨buf, lb.lineNumber⟩)
  | some i =>
    let completeText := buf.take i
    let newBuffer := buf.drop (i + 1)
    let p := emitLines lb.lineNumber (splitNl completeText)
    (p.1, ⟨newBuffer, p.2⟩)

/-- `LineBuffer.flush` (jsonLines.ts lines 161-167): if the trimmed
buffer is non-empty, increment the counter and emit one trimmed record.
The buffer field itself is not cleared by the source code. -/
def flush (lb : LineBuffer) : List LineRec × LineBuffer :=
  if 0 < (jsTrim lb.buffer).length then
    ([⟨jsTrim lb.buffer, lb.lineNumber + 1⟩], ⟨lb.buffer, lb.lineNumber + 1⟩)
  else ([], lb)

/-- A fresh `new LineBuffer()`. -/
def initLB : LineBuffer := ⟨[], 0⟩

/-- Feed a sequence of chunks through `processChunk`, collecting the
emitted records in order. -/
def feedMany (lb : LineBuffer) : List (List Char) → List LineRec × LineBuffer
  | [] => ([], lb)
  | c :: cs =>
    let p := processChunk lb c
    let q := feedMany p.2 cs
    (p.1 ++ q.1, q.2)

/-- Records produced by a whole stream: feed every chunk, then `flush`,
as `parseStream` does (jsonLines.ts lines 175-193). -/
def runChunks (chunks : List (List Char)) : List LineRec :=
  let p := feedMany initLB chunks
  p.1 ++ (flush p.2).1

/-- The scanning loop of `getLineColumn` (utils/string.ts lines
456-470): walk the split lines keeping the running start offset; the
first line whose span reaches `position` yields 1-based line and
column; if none does, fall back to `{ line: 1, column: 1 }`. -/
def glcAux (position : Nat) : List (List Char) → Nat → Nat → Nat × Nat
  | [], _, _ => (1, 1)
  | l :: ls, i, currentPos =>
    if position ≤ currentPos + l.length then
      (i + 1, position - currentPos + 1)
    else glcAux position ls (i + 1) (currentPos + l.length + 1)

/-- `getLineColumn` (utils/string.ts lines 449-471). -/
def getLineColumn (input : List Char) (position : Nat) : Nat × Nat :=
  glcAux position (splitNl input) 0 0

/-- The scanning loop of `buildSnippet` (utils/string.ts lines
430-441): on the line whose span reaches `position`, return that line,
a newline, and a caret under the zero-based column; if no line is
reached, return the whole input. -/
def buildSnippetAux (input : List Char) (position : Nat) :
    List (List Char) → Nat → List Char
  | [], _ => input
  | l :: ls, currentPos =>
    if position ≤ currentPos + l.length then
      l ++ '\n' :: (List.replicate (position - currentPos) ' ' ++ ['^'])
    else buildSnippetAux input position ls (currentPos + l.length + 1)

/-- `buildSnippet` (utils/string.ts lines 426-444). -/
def buildSnippet (input : List Char) (position : Nat) : List Char :=
  buildSnippetAux input position (splitNl input) 0

/-- The four boolean flags of `stripComments` (utils/string.ts lines
484-487): `inString`, `inComment`, `inMultilineComment`,
`escapeNext`. -/
structure ScanSt where
  inString : Bool
  inComment : Bool
  inMultilineComment : Bool
  escapeNext : Bool
deriving DecidableEq, Repr

/-- The character loop of `stripComments` (utils/string.ts lines
489-537), with the `i++` look-ahead skips rendered as recursion on
`cs.tail`.  The branch order matches the source: the `escapeNext`
check comes first, then the all-flags-false branch, then `inString`,
`inComment`, `inMultilineComment`. -/
def stripGo (st : ScanSt) : List Char → List Char
  | [] => []
  | c :: cs =>
    if st.escapeNext then
      c :: stripGo ⟨st.inString, st.inComment, st.inMultilineComment, false⟩ cs
    else if !st.inString && !st.inComment && !st.inMultilineComment then
      if c = '"' then c :: stripGo ⟨true, st.inComment, st.inMultilineComment, false⟩ cs
      else if c = '/' && cs.head? = some '/' then
        stripGo ⟨st.inString, true, st.inMultilineComment, false⟩ cs.tail
      else if c = '/' && cs.head? = some '*' then
        stripGo ⟨st.inString, st.inComment, true, false⟩ cs.tail
      else c :: stripGo st cs
    else if st.inString then
      if c = '\\' then c :: stripGo ⟨st.inString, st.inComment, st.inMultilineComment, true⟩ cs
      else if c = '"' then c :: stripGo ⟨false, st.inComment, st.inMultilineComment, false⟩ cs
      else c :: stripGo st cs
    else if st.inComment then
      if c = '\n' then c :: stripGo ⟨st.inString, false, st.inMultilineComment, false⟩ cs
      else stripGo st cs
    else
      if c = '*' && cs.head? = some '/' then
        stripGo ⟨st.inString, st.inComment, false, false⟩ cs.tail
      else if c = '\n' then c :: stripGo st cs
      else stripGo st cs
termination_by l => l.length
decreasing_by
  all_goals simp [List.length_tail]
  all_goals omega

/-- The initial scan state: all four flags `false`. -/
def st0 : ScanSt := ⟨false, false, false, false⟩

/-- `stripComments` (utils/string.ts lines 482-540). -/
def stripComments (input : List Char) : List Char :=
  stripGo st0 input

/-- Model of JavaScript `input.replace(/\r\n/g, "\n")`: every
carriage return immediately followed by a newline is dropped. -/
def normalizeCrLf : List Char → List Char
  | [] => []
  | c :: cs =>
    if c = '\r' && cs.head? = some '\n' then normalizeCrLf cs
    else c :: normalizeCrLf cs

/-- `splitLines` (jsonLines.ts lines 22-25): normalise line endings,
split on `'\n'`, drop blank lines. -/
def splitLines (input : List Char) : List (List Char) :=
  (splitNl (normalizeCrLf input)).filter (fun l => 0 < (jsTrim l).length)

/-- The error produced by `parseLine` (jsonLines.ts lines 32-57): a
`JsonLinesParseError` carrying the 1-based record number and the
underlying codec error.  The codec (`JSON.parse`) is an external
collaborator, so its error payload stays abstract. -/
structure JsonLinesParseError (ε : Type) where
  lineNumber : Nat
  err : ε
deriving DecidableEq, Repr

/-- `parseLine` (jsonLines.ts lines 32-57) over an abstract codec
`decode` standing for `JSON.parse`: tag a decode failure with the
record's line number. -/
def parseLine (decode : List Char → Except ε α) (l : List Char)
    (lineNumber : Nat) : Except (JsonLinesParseError ε) α :=
  match decode l with
  | Except.ok v => Except.ok v
  | Except.error e => Except.error ⟨lineNumber, e⟩

/-- Model of `Effect.all` over the already-determined per-line
results: succeed with the list of values, or fail with the error of
the first failing entry in list order (the deterministic outcome of
the single-threaded Effect runtime on these synchronous effects). -/
def effectAll : List (Except ε α) → Except ε (List α)
  | [] => Except.ok []
  | e :: es =>
    match e with
    | Except.error x => Except.error x
    | Except.ok v =>
      match effectAll es with
      | Except.error x => Except.error x
      | Except.ok vs => Except.ok (v :: vs)

/-- Model of `lines.map((line, index) => f(line, index + 1))`, with an
explicit starting index to ease induction. -/
def mapWithIndex (f : Nat → List Char → β) : Nat → List (List Char) → List β
  | _, [] => []
  | i, l :: ls => f i l :: mapWithIndex f (i + 1) ls

/-- `parseBatch` (jsonLines.ts lines 64-80) over an abstract codec:
split the input into non-blank lines, parse each with its 1-based
line number, and combine the results with `Effect.all`. -/
def parseBatch (decode : List Char → Except ε α) (input : List Char) :
    Except (JsonLinesParseError ε) (List α) :=
  let lines := splitLines input
  if lines.length = 0 then Except.ok []
  else effectAll (mapWithIndex (fun i l => parseLine decode l (i + 1)) 0 lines)

/-! Spec-side token grammar used to state the string-versus-comment
property (spec §8: comment-like substrings inside a string literal are
never stripped, the same substrings outside any string literal are
always stripped).  A JSONC text is viewed as a sequence of tokens:
complete string literals, complete `//` and `/* */` comments, and
ordinary characters. -/

/-- One lexical token of a JSONC text. -/
inductive JTok where
  | str (body : List Char)
  | lineC (body : List Char)
  | blockC (body : List Char)
  | raw (c : Char)
deriving DecidableEq, Repr

/-- The characters a token stands for in the input text. -/
def JTok.render : JTok → List Char
  | JTok.str body => '"' :: body ++ ['"']
  | JTok.lineC body => '/' :: '/' :: body ++ ['\n']
  | JTok.blockC body => '/' :: '*' :: body ++ ['*', '/']
  | JTok.raw c => [c]

/-- What the spec says the stripper leaves of each token: string
literals survive verbatim, a line comment is replaced by its
terminating newline, a block comment by its newlines only, ordinary
characters survive. -/
def JTok.stripped : JTok → List Char
  | JTok.str body => '"' :: body ++ ['"']
  | JTok.lineC _ => ['\n']
  | JTok.blockC body => body.filter (fun c => c = '\n')
  | JTok.raw c => [c]

/-- The first character of a token's rendering. -/
def JTok.headChar : JTok → Char
  | JTok.str _ => '"'
  | JTok.lineC _ => '/'
  | JTok.blockC _ => '/'
  | JTok.raw c => c

/-- A well-formed string-literal body: a sequence of ordinary
characters and backslash-escape pairs, with no unescaped `'"'` and no
dangling final backslash. -/
def strBodyOk : List Char → Bool
  | [] => true
  | c :: cs =>
    if c = '\\' then
      match cs with
      | [] => false
      | _ :: cs2 => strBodyOk cs2
    else if c = '"' then false
    else strBodyOk cs

/-- A well-formed block-comment body: it contains no `*/` pair, so
the first `*/` after the opener is the one that closes it. -/
def blockBodyOk : List Char → Bool
  | [] => true
  | c :: cs =>
    if c = '*' && cs.head? = some '/' then false
    else blockBodyOk cs

/-- A well-formed token on its own. -/
def tokOk : JTok → Bool
  | JTok.str body => strBodyOk body
  | JTok.lineC body => !body.contains '\n'
  | JTok.blockC body => blockBodyOk body
  | JTok.raw c => c ≠ '"'

/-- Whether a token may be followed by the given next token: an
ordinary `'/'` must not be followed by a token starting with `'/'` or
`'*'` (otherwise the two would themselves form a comment opener). -/
def adjOk (t : JTok) (next : Option JTok) : Bool :=
  match t with
  | JTok.raw c =>
    match next with
    | some t2 => !(c = '/' && (t2.headChar = '/' || t2.headChar = '*'))
    | none => true
  | JTok.str _ => true
  | JTok.lineC _ => true
  | JTok.blockC _ => true

/-- A well-formed token sequence: every token is well formed and every
adjacent pair is compatible. -/
def toksOk : List JTok → Bool
  | [] => true
  | t :: ts => tokOk t && adjOk t ts.head? && toksOk ts

/-- Whether a text is comment-free from the scanner's point of view:
re-scanning it never meets a `//` or `/*` opener outside a string.
The two flags track the string state (`inString`, `escapeNext`). -/
def cleanGo (inString escapeNext : Bool) : List Char → Bool
  | [] => true
  | c :: cs =>
    if inString then
      if escapeNext then cleanGo true false cs
      else if c = '\\' then cleanGo true true cs
      else if c = '"' then cleanGo false false cs
      else cleanGo true false cs
    else
      if c = '"' then cleanGo true false cs
      else if c = '/' && (cs.head? = some '/' || cs.head? = some '*') then false
      else cleanGo false false cs

/-- The number of characters a list of lines came from, counting one
separator between adjacent lines: `spanLen (splitNl x) = x.length`. -/
def spanLen : List (List Char) → Nat
  | [] => 0
  | [l] => l.length
  | l :: ls => l.length + 1 + spanLen ls

/-- A concrete codec for witnesses: reject exactly the line `bad`,
with error payload `0`; accept every other line as itself. -/
def decOdd (l : List Char) : Except Nat (List Char) :=
  if l = ['b', 'a', 'd'] then Except.error 0 else Except.ok l

/-! ### Basic lemmas about the splitting helpers -/

theorem splitNl_ne_nil (x : List Char) : splitNl x ≠ [] := by
  induction x with
  | nil => simp [splitNl]
  | cons c cs ih =>
    simp only [splitNl]
    split
    · simp
    · cases h : splitNl cs with
      | nil => exact absurd h ih
      | cons l ls => simp

theorem mem_splitNl_no_nl (x : List Char) :
    ∀ l ∈ splitNl x, '\n' ∉ l := by
  induction x with
  | nil => intro l hl; simp [splitNl] at hl; simp [hl]
  | cons c cs ih =>
    intro l hl
    simp only [splitNl] at hl
    by_cases hc : c = '\n'
    · simp [hc] at hl
      rcases hl with h | h
      · simp [h]
      · exact ih l h
    · simp [hc] at hl
      cases h : splitNl cs with
      | nil => exact absurd h (splitNl_ne_nil cs)
      | cons m ms =>
        rw [h] at hl
        rcases List.mem_cons.mp hl with h1 | h1
        · subst h1
          intro hmem
          rcases List.mem_cons.mp hmem with h2 | h2
          · exact hc h2.symm
          · exact ih m (by simp [h]) h2
        · exact ih l (by simp [h, h1])

theorem splitNl_append_nl (x y : List Char) :
    splitNl (x ++ '\n' :: y) = splitNl x ++ splitNl y := by
  induction x with
  | nil => simp [splitNl]
  | cons c cs ih =>
    by_cases hc : c = '\n'
    · simp [splitNl, hc, ih]
    · cases h : splitNl cs with
      | nil => exact absurd h (splitNl_ne_nil cs)
      | cons l ls => simp [splitNl, hc, ih, h]

theorem lastIdxNl_of_no_nl (l : List Char) (h : '\n' ∉ l) :
    lastIdxNl l = none := by
  induction l with
  | nil => rfl
  | cons c cs ih =>
    simp only [List.mem_cons] at h
    push_neg at h
    simp [lastIdxNl, ih h.2, Ne.symm h.1]

theorem lastIdxNl_append_nl (x y : List Char) (h : '\n' ∉ y) :
    lastIdxNl (x ++ '\n' :: y) = some x.length := by
  induction x with
  | nil => simp [lastIdxNl, lastIdxNl_of_no_nl y h]
  | cons c cs ih => simp [lastIdxNl, ih]

theorem take_append_nl (x y : List Char) :
    (x ++ '\n' :: y).take x.length = x := by
  simp [List.take_left x ('\n' :: y)]

theorem drop_append_nl (x y : List Char) :
    (x ++ '\n' :: y).drop (x.length + 1) = y := by
  have : x ++ '\n' :: y = (x ++ ['\n']) ++ y := by simp
  rw [this]
  have hl : (x ++ ['\n']).length = x.length + 1 := by simp
  rw [← hl]
  exact List.drop_left (x ++ ['\n']) y

theorem exists_last_nl (l : List Char) (h : '\n' ∈ l) :
    ∃ x y, l = x ++ '\n' :: y ∧ '\n' ∉ y := by
  induction l with
  | nil => simp at h
  | cons c cs ih =>
    by_cases hm : '\n' ∈ cs
    · obtain ⟨x, y, hxy, hy⟩ := ih hm
      exact ⟨c :: x, y, by simp [hxy], hy⟩
    · have hc : c = '\n' := by
        rcases List.mem_cons.mp h with h1 | h1
        · exact h1.symm
        · exact absurd h1 hm
      exact ⟨[], cs, by simp [hc], hm⟩

/-! ### Lemmas about `emitLines` -/

theorem emitLines_append (n : Nat) (s t : List (List Char)) :
    emitLines n (s ++ t) =
      ((emitLines n s).1 ++ (emitLines (emitLines n s).2 t).1,
        (emitLines (emitLines n s).2 t).2) := by
  induction s generalizing n with
  | nil => simp [emitLines]
  | cons l ls ih =>
    by_cases hl : 0 < (jsTrim l).length
    · simp [emitLines, hl, ih]
    · simp [emitLines, hl, ih]

theorem emitLines_count (n : Nat) (ls : List (List Char)) :
    (emitLines n ls).2 = n + (emitLines n ls).1.length := by
  induction ls generalizing n with
  | nil => simp [emitLines]
  | cons l ls ih =>
    by_cases hl : 0 < (jsTrim l).length
    · simp [emitLines, hl, ih (n + 1)]; omega
    · simpa [emitLines, hl] using ih n

theorem emitLines_numbers (n : Nat) (ls : List (List Char)) :
    (emitLines n ls).1.map LineRec.lineNumber =
      List.range' (n + 1) (emitLines n ls).1.length := by
  induction ls generalizing n with
  | nil => simp [emitLines]
  | cons l ls ih =>
    by_cases hl : 0 < (jsTrim l).length
    · simp [emitLines, hl, List.range'_succ, ih (n + 1)]
    · simp [emitLines, hl, ih n]

theorem emitLines_mem (n : Nat) (ls : List (List Char)) :
    ∀ r ∈ (emitLines n ls).1, r.line ∈ ls ∧ 0 < (jsTrim r.line).length := by
  induction ls generalizing n with
  | nil => simp [emitLines]
  | cons l ls ih =>
    intro r hr
    by_cases hl : 0 < (jsTrim l).length
    · simp only [emitLines, hl, if_true] at hr
      rcases List.mem_cons.mp hr with h1 | h1
      · subst h1; exact ⟨by simp, hl⟩
      · obtain ⟨h2, h3⟩ := ih (n + 1) r h1
        exact ⟨by simp [h2], h3⟩
    · simp only [emitLines, hl, if_false] at hr
      obtain ⟨h2, h3⟩ := ih n r hr
      exact ⟨by simp [h2], h3⟩

/-! ### Rechunking invariance of the segmenter -/

theorem processChunk_append (lb : LineBuffer) (a b : List Char) :
    processChunk lb (a ++ b) =
      ((processChunk lb a).1 ++ (processChunk (processChunk lb a).2 b).1,
        (processChunk (processChunk lb a).2 b).2) := by
  by_cases h : '\n' ∈ lb.buffer ++ a
  · obtain ⟨x, y, hxy, hy⟩ := exists_last_nl _ h
    have hA : processChunk lb a =
        ((emitLines lb.lineNumber (splitNl x)).1,
          ⟨y, (emitLines lb.lineNumber (splitNl x)).2⟩) := by
      simp only [processChunk, hxy, lastIdxNl_append_nl x y hy,
        take_append_nl, drop_append_nl]
    by_cases hb : '\n' ∈ b
    · obtain ⟨x2, y2, hb2, hy2⟩ := exists_last_nl _ hb
      have hbufL : lb.buffer ++ (a ++ b) =
          (x ++ '\n' :: (y ++ x2)) ++ '\n' :: y2 := by
        rw [← List.append_assoc, hxy, hb2]; simp
      have hbufR : y ++ b = (y ++ x2) ++ '\n' :: y2 := by
        rw [hb2]; simp
      have hL : processChunk lb (a ++ b) =
          ((emitLines lb.lineNumber (splitNl (x ++ '\n' :: (y ++ x2)))).1,
            ⟨y2, (emitLines lb.lineNumber (splitNl (x ++ '\n' :: (y ++ x2)))).2⟩) := by
        simp only [processChunk, hbufL,
          lastIdxNl_append_nl (x ++ '\n' :: (y ++ x2)) y2 hy2,
          take_append_nl, drop_append_nl]
      rw [hL, hA]
      have hR : processChunk (⟨y, (emitLines lb.lineNumber (splitNl x)).2⟩ : LineBuffer) b =
          ((emitLines (emitLines lb.lineNumber (splitNl x)).2 (splitNl (y ++ x2))).1,
            ⟨y2, (emitLines (emitLines lb.lineNumber (splitNl x)).2 (splitNl (y ++ x2))).2⟩) := by
        simp only [processChunk, hbufR,
          lastIdxNl_append_nl (y ++ x2) y2 hy2,
          take_append_nl, drop_append_nl]
      rw [hR]
      rw [splitNl_append_nl, emitLines_append]
    · have hyb : '\n' ∉ y ++ b := by
        intro hm
        rcases List.mem_append.mp hm with h1 | h1
        · exact hy h1
        · exact hb h1
      have hbufL : lb.buffer ++ (a ++ b) = x ++ '\n' :: (y ++ b) := by
        rw [← List.append_assoc, hxy]; simp
      have hL : processChunk lb (a ++ b) =
          ((emitLines lb.lineNumber (splitNl x)).1,
            ⟨y ++ b, (emitLines lb.lineNumber (splitNl x)).2⟩) := by
        simp only [processChunk, hbufL,
          lastIdxNl_append_nl x (y ++ b) hyb,
          take_append_nl, drop_append_nl]
      rw [hL, hA]
      have hR : processChunk (⟨y, (emitLines lb.lineNumber (splitNl x)).2⟩ : LineBuffer) b =
          ([], ⟨y ++ b, (emitLines lb.lineNumber (splitNl x)).2⟩) := by
        simp only [processChunk, lastIdxNl_of_no_nl (y ++ b) hyb]
      rw [hR]
      simp
  · have h1 : lastIdxNl (lb.buffer ++ a) = none := lastIdxNl_of_no_nl _ h
    have hA : processChunk lb a = ([], ⟨lb.buffer ++ a, lb.lineNumber⟩) := by
      simp only [processChunk, h1]
    rw [hA]
    have hL : processChunk lb (a ++ b) =
        processChunk ⟨lb.buffer ++ a, lb.lineNumber⟩ b := by
      simp only [processChunk, List.append_assoc]
    rw [hL]
    simp

theorem feedMany_flatten (lb : LineBuffer) (a : List Char)
    (cs : List (List Char)) :
    feedMany lb (a :: cs) = processChunk lb (a ++ cs.flatten) := by
  induction cs generalizing lb a with
  | nil => simp [feedMany, processChunk]
  | cons b cs ih =>
    have h1 : feedMany lb (a :: b :: cs) =
        ((processChunk lb a).1 ++ (feedMany (processChunk lb a).2 (b :: cs)).1,
          (feedMany (processChunk lb a).2 (b :: cs)).2) := by
      simp [feedMany]
    rw [h1, ih (processChunk lb a).2 b]
    have h2 : (b :: cs).flatten = b ++ cs.flatten := by simp
    rw [h2, processChunk_append lb a (b ++ cs.flatten)]

/-- C1: rechunking invariance of the line segmenter — for every text
`T` and every partition of `T` into chunks, feeding the chunks in
order through `processChunk` and then calling `flush` yields exactly
the same ordered record sequence as feeding the whole of `T` at once
and then calling `flush`. -/
theorem C1_rechunking_invariance (T : List Char)
    (chunks : List (List Char)) (hpart : chunks.flatten = T) :
    runChunks chunks = runChunks [T] := by
  subst hpart
  cases chunks with
  | nil => decide
  | cons a cs =>
    have h1 : feedMany initLB (a :: cs) =
        processChunk initLB (a ++ cs.flatten) := feedMany_flatten _ _ _
    have h2 : ∀ x : List Char, feedMany initLB [x] = processChunk initLB x := by
      intro x
      have := feedMany_flatten initLB x []
      simpa using this
    simp only [runChunks, h1, List.flatten_cons, h2]

/-- Witness for C1: the scenario-D partition
`['\x7b"id":', '1\x7d\n\x7b"id":2\x7d\n']` of the two-record text. -/
theorem C1_witness :
    (["\x7b\"id\":".toList, "1\x7d\n\x7b\"id\":2\x7d\n".toList].flatten
        = "\x7b\"id\":1\x7d\n\x7b\"id\":2\x7d\n".toList) ∧
      runChunks ["\x7b\"id\":".toList, "1\x7d\n\x7b\"id\":2\x7d\n".toList] =
        runChunks ["\x7b\"id\":1\x7d\n\x7b\"id\":2\x7d\n".toList] :=
  ⟨by decide,
    C1_rechunking_invariance "\x7b\"id\":1\x7d\n\x7b\"id\":2\x7d\n".toList
      ["\x7b\"id\":".toList, "1\x7d\n\x7b\"id\":2\x7d\n".toList] (by decide)⟩

/-! ### Line numbering -/

theorem processChunk_numbers (lb : LineBuffer) (chunk : List Char) :
    (processChunk lb chunk).1.map LineRec.lineNumber =
      List.range' (lb.lineNumber + 1) (processChunk lb chunk).1.length ∧
    (processChunk lb chunk).2.lineNumber =
      lb.lineNumber + (processChunk lb chunk).1.length := by
  rcases h : lastIdxNl (lb.buffer ++ chunk) with _ | i
  · simp [processChunk, h]
  · simp only [processChunk, h]
    exact ⟨emitLines_numbers _ _, emitLines_count _ _⟩

theorem feedMany_numbers (lb : LineBuffer) (cs : List (List Char)) :
    (feedMany lb cs).1.map LineRec.lineNumber =
      List.range' (lb.lineNumber + 1) (feedMany lb cs).1.length ∧
    (feedMany lb cs).2.lineNumber =
      lb.lineNumber + (feedMany lb cs).1.length := by
  induction cs generalizing lb with
  | nil => simp [feedMany]
  | cons a cs ih =>
    obtain ⟨hm, hn⟩ := processChunk_numbers lb a
    obtain ⟨hm2, hn2⟩ := ih (processChunk lb a).2
    constructor
    · simp only [feedMany, List.map_append, hm, hm2, hn, List.length_append]
      have hra := List.range'_append (lb.lineNumber + 1)
        (processChunk lb a).1.length
        (feedMany (processChunk lb a).2 cs).1.length 1
      simp only [one_mul] at hra
      have h3 : lb.lineNumber + (processChunk lb a).1.length + 1 =
          lb.lineNumber + 1 + (processChunk lb a).1.length := by omega
      rw [h3, hra]
      congr 1
      omega
    · simp only [feedMany, hn2, hn, List.length_append]
      omega

/-- C6: blank lines consume no line-number slot — for every chunk
sequence the `lineNumber` fields of the emitted records are exactly
the consecutive integers `1, 2, …, k`; and feeding the scenario-E text
`'\x7b"id":1\x7d\n\n  \n\x7b"id":2\x7d\n'` then flushing yields exactly the
records `(1, '\x7b"id":1\x7d')` and `(2, '\x7b"id":2\x7d')`. -/
theorem C6_blank_lines_skipped :
    (∀ chunks : List (List Char),
      (runChunks chunks).map LineRec.lineNumber =
        List.range' 1 (runChunks chunks).length) ∧
    runChunks ["\x7b\"id\":1\x7d\n\n  \n\x7b\"id\":2\x7d\n".toList] =
      [⟨"\x7b\"id\":1\x7d".toList, 1⟩, ⟨"\x7b\"id\":2\x7d".toList, 2⟩] := by
  constructor
  · intro chunks
    obtain ⟨hm, hn⟩ := feedMany_numbers initLB chunks
    simp only [runChunks, flush]
    by_cases hb : 0 < (jsTrim (feedMany initLB chunks).2.buffer).length
    · simp only [hb, if_true, List.map_append, hm, hn, List.map_cons,
        List.map_nil, List.length_append, List.length_cons, List.length_nil]
      have h0 : initLB.lineNumber = 0 := rfl
      rw [h0]
      simp only [Nat.zero_add]
      rw [List.range'_1_concat]
      simp [Nat.add_comm]
    · simp only [hb, if_false]
      simpa [initLB] using hm
  · decide

/-- C9: `flush` neither clears nor resets the pending buffer — on any
buffer state whose pending text is non-blank after trimming, two
consecutive `flush` calls each emit one record with the same trimmed
text and with line numbers `n + 1` and `n + 2`. -/
theorem C9_flush_does_not_clear (lb : LineBuffer)
    (h : 0 < (jsTrim lb.buffer).length) :
    flush lb = ([⟨jsTrim lb.buffer, lb.lineNumber + 1⟩],
        ⟨lb.buffer, lb.lineNumber + 1⟩) ∧
      flush (flush lb).2 = ([⟨jsTrim lb.buffer, lb.lineNumber + 2⟩],
        ⟨lb.buffer, lb.lineNumber + 2⟩) := by
  refine ⟨by simp [flush, h], ?_⟩
  simp [flush, h]

/-- Witness for C9 at the buffer state `⟨" x ", 3⟩`. -/
theorem C9_witness :
    0 < (jsTrim " x ".toList).length ∧
      flush ⟨" x ".toList, 3⟩ = ([⟨['x'], 4⟩], ⟨" x ".toList, 4⟩) ∧
      flush (flush ⟨" x ".toList, 3⟩).2 = ([⟨['x'], 5⟩], ⟨" x ".toList, 5⟩) := by
  have h := C9_flush_does_not_clear ⟨" x ".toList, 3⟩ (by decide)
  exact ⟨by decide, by rw [h.1]; decide, by rw [h.2]; decide⟩

/-- C2 counterexample: `processChunk` performs no `\r\n` normalisation
and no trimming — feeding the single chunk `"  a \r\n"` emits the raw
record text `"  a \r"`, which contains `'\r'` and leading and trailing
whitespace, contradicting the claim. -/
theorem C2_counterexample :
    (processChunk initLB "  a \r\n".toList).1 = [⟨"  a \r".toList, 1⟩] ∧
      '\r' ∈ "  a \r".toList ∧ isJsWs ' ' = true ∧
      "  a \r".toList.head? = some ' ' := by
  decide

/-- C2 amended: every record emitted by `processChunk` carries the raw
line content between newlines — it never contains `'\n'` and is never
blank after trimming, but `'\r'` and surrounding whitespace are
preserved as-is. -/
theorem C2_amended_raw_lines (lb : LineBuffer) (chunk : List Char)
    (r : LineRec) (hr : r ∈ (processChunk lb chunk).1) :
    '\n' ∉ r.line ∧ 0 < (jsTrim r.line).length := by
  rcases h : lastIdxNl (lb.buffer ++ chunk) with _ | i
  · rw [processChunk] at hr
    simp only [h] at hr
    simp at hr
  · rw [processChunk] at hr
    simp only [h] at hr
    obtain ⟨hmem, hpos⟩ := emitLines_mem lb.lineNumber _ r hr
    exact ⟨mem_splitNl_no_nl _ _ hmem, hpos⟩

/-- Witness for C2's amended statement at the chunk `"  a \r\n"`. -/
theorem C2_amended_witness :
    ((⟨"  a \r".toList, 1⟩ : LineRec) ∈ (processChunk initLB "  a \r\n".toList).1) ∧
      '\n' ∉ "  a \r".toList ∧ 0 < (jsTrim "  a \r".toList).length :=
  ⟨by decide,
    C2_amended_raw_lines initLB "  a \r\n".toList ⟨"  a \r".toList, 1⟩ (by decide)⟩

/-! ### Position locator -/

theorem spanLen_splitNl (x : List Char) : spanLen (splitNl x) = x.length := by
  induction x with
  | nil => rfl
  | cons c cs ih =>
    by_cases hc : c = '\n'
    · cases h : splitNl cs with
      | nil => exact absurd h (splitNl_ne_nil cs)
      | cons l ls =>
        rw [h] at ih
        have h1 : splitNl (c :: cs) = [] :: l :: ls := by simp [splitNl, hc, h]
        rw [h1]
        simp only [spanLen, List.length_cons, List.length_nil] at ih ⊢
        omega
    · cases h : splitNl cs with
      | nil => exact absurd h (splitNl_ne_nil cs)
      | cons l ls =>
        rw [h] at ih
        have h1 : splitNl (c :: cs) = (c :: l) :: ls := by simp [splitNl, hc, h]
        rw [h1]
        cases ls with
        | nil =>
          simp only [spanLen, List.length_cons] at ih ⊢
          omega
        | cons m ms =>
          simp only [spanLen, List.length_cons] at ih ⊢
          omega

theorem glcAux_overflow (pos : Nat) (ls : List (List Char)) :
    ∀ i cur, cur + spanLen ls < pos → glcAux pos ls i cur = (1, 1) := by
  induction ls with
  | nil => intro i cur _; rfl
  | cons l ls ih =>
    intro i cur h
    have hs : l.length ≤ spanLen (l :: ls) := by
      cases ls
      · simp [spanLen]
      · simp [spanLen]; omega
    have h1 : ¬pos ≤ cur + l.length := by omega
    simp only [glcAux, h1, if_false]
    cases ls with
    | nil => rfl
    | cons m ms =>
      apply ih
      have h2 : spanLen (l :: m :: ms) = l.length + 1 + spanLen (m :: ms) := by
        simp [spanLen]
      omega

/-- C3 counterexample: for the text `"a\nbc"` (length 4) and the
out-of-range offset 10, `getLineColumn` returns line 1, column 1 —
not the last line (line 2) with column `length("bc") + 1 = 3` as the
claim requires. -/
theorem C3_counterexample :
    getLineColumn "a\nbc".toList 10 = (1, 1) ∧
      ((1, 1) : Nat × Nat) ≠ (2, "bc".toList.length + 1) := by
  decide

/-- C3 amended: for every text and every offset strictly greater than
the length of the text, `getLineColumn` returns the fallback
`(line 1, column 1)`. -/
theorem C3_amended_fallback (input : List Char) (pos : Nat)
    (h : input.length < pos) : getLineColumn input pos = (1, 1) := by
  unfold getLineColumn
  apply glcAux_overflow
  rw [spanLen_splitNl]
  omega

/-- Witness for C3's amended statement: text `"ab"`, offset 5. -/
theorem C3_amended_witness :
    "ab".toList.length < 5 ∧ getLineColumn "ab".toList 5 = (1, 1) :=
  ⟨by decide, C3_amended_fallback "ab".toList 5 (by decide)⟩

theorem glc_snippet_aux (input : List Char) (pos : Nat) :
    ∀ (ls : List (List Char)) (i cur : Nat), ls ≠ [] →
      pos ≤ cur + spanLen ls →
      ∃ j col, j < ls.length ∧ glcAux pos ls i cur = (i + j + 1, col) ∧
        1 ≤ col ∧
        buildSnippetAux input pos ls cur =
          ls.getD j [] ++ '\n' :: (List.replicate (col - 1) ' ' ++ ['^']) := by
  intro ls
  induction ls with
  | nil => intro i cur hne _; exact absurd rfl hne
  | cons l ls ih =>
    intro i cur _ hle
    by_cases hfire : pos ≤ cur + l.length
    · refine ⟨0, pos - cur + 1, by simp, ?_, by omega, ?_⟩
      · simp [glcAux, hfire]
      · simp [buildSnippetAux, hfire]
    · have hlast : ls ≠ [] := by
        intro hnil
        subst hnil
        simp only [spanLen] at hle
        omega
      cases ls with
      | nil => exact absurd rfl hlast
      | cons m ms =>
        have hle2 : pos ≤ (cur + l.length + 1) + spanLen (m :: ms) := by
          simp only [spanLen] at hle
          omega
        obtain ⟨j, col, hj, hglc, hcol, hsnip⟩ :=
          ih (i + 1) (cur + l.length + 1) (by simp) hle2
        refine ⟨j + 1, col, by simpa using Nat.succ_lt_succ hj, ?_, hcol, ?_⟩
        · have hstep : glcAux pos (l :: m :: ms) i cur =
              glcAux pos (m :: ms) (i + 1) (cur + l.length + 1) := by
            rw [glcAux]
            simp [hfire]
          rw [hstep, hglc]
          have harith : i + 1 + j + 1 = i + (j + 1) + 1 := by omega
          rw [harith]
        · have hstep : buildSnippetAux input pos (l :: m :: ms) cur =
              buildSnippetAux input pos (m :: ms) (cur + l.length + 1) := by
            rw [buildSnippetAux]
            simp [hfire]
          rw [hstep, hsnip]
          simp

/-- C8: for every text and every offset inside the text, the locator
returns a 1-based line and column, and `buildSnippet` returns exactly
two lines joined by `'\n'`: the source line at the returned line
number, then `column - 1` spaces and a caret; in particular for
`'\x7b"id": 1, invalid\x7d'` at offset 10 it returns line 1, column 11 and
a caret under 10 spaces. -/
theorem C8_snippet_two_lines :
    (∀ (input : List Char) (pos : Nat), pos ≤ input.length →
      ∃ ln col, getLineColumn input pos = (ln, col) ∧ 1 ≤ ln ∧ 1 ≤ col ∧
        buildSnippet input pos =
          (splitNl input).getD (ln - 1) [] ++ '\n' ::
            (List.replicate (col - 1) ' ' ++ ['^']) ∧
        '\n' ∉ (splitNl input).getD (ln - 1) []) ∧
    getLineColumn "\x7b\"id\": 1, invalid\x7d".toList 10 = (1, 11) ∧
    buildSnippet "\x7b\"id\": 1, invalid\x7d".toList 10 =
      "\x7b\"id\": 1, invalid\x7d".toList ++ '\n' ::
        (List.replicate 10 ' ' ++ ['^']) := by
  refine ⟨?_, by decide, by decide⟩
  intro input pos h
  have hne := splitNl_ne_nil input
  have hle : pos ≤ 0 + spanLen (splitNl input) := by
    rw [spanLen_splitNl]
    omega
  obtain ⟨j, col, hj, hglc, hcol, hsnip⟩ :=
    glc_snippet_aux input pos (splitNl input) 0 0 hne hle
  refine ⟨j + 1, col, ?_, by omega, hcol, ?_, ?_⟩
  · rw [getLineColumn, hglc]
    simp
  · rw [buildSnippet, hsnip]
    simp
  · have hg : (splitNl input).getD (j + 1 - 1) [] = (splitNl input)[j] := by
      have : j + 1 - 1 = j := by omega
      rw [this]
      exact List.getD_eq_getElem (splitNl input) [] hj
    rw [hg]
    exact mem_splitNl_no_nl input _ (List.getElem_mem hj)

/-- Witness for C8 at the scenario-C text and offset 10. -/
theorem C8_witness :
    10 ≤ "\x7b\"id\": 1, invalid\x7d".toList.length ∧
      ∃ ln col,
        getLineColumn "\x7b\"id\": 1, invalid\x7d".toList 10 = (ln, col) ∧
        1 ≤ ln ∧ 1 ≤ col ∧
        buildSnippet "\x7b\"id\": 1, invalid\x7d".toList 10 =
          (splitNl "\x7b\"id\": 1, invalid\x7d".toList).getD (ln - 1) [] ++
            '\n' :: (List.replicate (col - 1) ' ' ++ ['^']) ∧
        '\n' ∉ (splitNl "\x7b\"id\": 1, invalid\x7d".toList).getD (ln - 1) [] :=
  ⟨by decide, C8_snippet_two_lines.1 "\x7b\"id\": 1, invalid\x7d".toList 10 (by decide)⟩

/-! ### Fail-fast batch parsing -/

theorem effectAll_first_error {ε α : Type} (decode : List Char → Except ε α) :
    ∀ (ls : List (List Char)) (n i : Nat) (e : ε) (hi : i < ls.length),
      decode (ls.get ⟨i, hi⟩) = Except.error e →
      (∀ j (hj : j < i), ∃ v, decode (ls.get ⟨j, Nat.lt_trans hj hi⟩) = Except.ok v) →
      effectAll (mapWithIndex (fun k l => parseLine decode l (k + 1)) n ls) =
        Except.error ⟨n + i + 1, e⟩ := by
  intro ls
  induction ls with
  | nil => intro n i e hi; exact absurd hi (by simp)
  | cons l ls ih =>
    intro n i e hi he hprev
    cases i with
    | zero =>
      simp only [List.get] at he
      simp [mapWithIndex, effectAll, parseLine, he]
    | succ i =>
      obtain ⟨v, hv⟩ := hprev 0 (Nat.succ_pos i)
      simp only [List.get] at hv
      have hi2 : i < ls.length := by simpa using hi
      have he2 : decode (ls.get ⟨i, hi2⟩) = Except.error e := by
        simpa using he
      have hprev2 : ∀ j (hj : j < i),
          ∃ v, decode (ls.get ⟨j, Nat.lt_trans hj hi2⟩) = Except.ok v := by
        intro j hj
        obtain ⟨w, hw⟩ := hprev (j + 1) (Nat.succ_lt_succ hj)
        exact ⟨w, by simpa using hw⟩
      have hrec := ih (n + 1) i e hi2 he2 hprev2
      have hstep : mapWithIndex (fun k l => parseLine decode l (k + 1)) n (l :: ls) =
          parseLine decode l (n + 1) ::
            mapWithIndex (fun k l => parseLine decode l (k + 1)) (n + 1) ls := rfl
      have hpl : parseLine decode l (n + 1) = Except.ok v := by
        simp [parseLine, hv]
      rw [hstep, hpl]
      simp only [effectAll, hrec]
      have harith : n + 1 + i + 1 = n + (i + 1) + 1 := by omega
      rw [harith]

/-- C7: `parseBatch` is fail-fast — whenever some line of the
(normalised, blank-filtered) input fails to decode, and every earlier
line decodes, the whole batch fails with the `JsonLinesParseError` of
that first failing line, carrying its 1-based record number; no
results or further errors are collected. -/
theorem C7_parseBatch_fail_fast {ε α : Type}
    (decode : List Char → Except ε α) (input : List Char)
    (i : Nat) (e : ε) (hi : i < (splitLines input).length)
    (he : decode ((splitLines input).get ⟨i, hi⟩) = Except.error e)
    (hprev : ∀ j (hj : j < i),
      ∃ v, decode ((splitLines input).get ⟨j, Nat.lt_trans hj hi⟩) = Except.ok v) :
    parseBatch decode input = Except.error ⟨i + 1, e⟩ := by
  have hne : ¬(splitLines input).length = 0 := by omega
  rw [parseBatch]
  simp only [hne, if_false]
  have := effectAll_first_error decode (splitLines input) 0 i e hi he hprev
  simpa using this

/-- Witness for C7: with a codec rejecting exactly the line `bad`,
the input `"good\nbad\nnext\n"` fails with record number 2. -/
theorem C7_witness :
    (1 < (splitLines "good\nbad\nnext\n".toList).length) ∧
      parseBatch decOdd "good\nbad\nnext\n".toList =
        Except.error ⟨2, 0⟩ := by
  refine ⟨by decide, ?_⟩
  exact C7_parseBatch_fail_fast decOdd "good\nbad\nnext\n".toList 1 0
    (by decide) rfl
    (by
      intro j hj
      interval_cases j
      exact ⟨"good".toList, rfl⟩)

/-! ### Newline preservation of the comment stripper -/

theorem stripGo_count_aux :
    ∀ n (l : List Char), l.length ≤ n → ∀ st,
      (stripGo st l).count '\n' = l.count '\n' := by
  intro n
  induction n with
  | zero =>
    intro l hl st
    have h0 : l = [] := List.length_eq_zero.mp (Nat.le_zero.mp hl)
    subst h0
    simp [stripGo]
  | succ n ih =>
    intro l hl st
    cases l with
    | nil => simp [stripGo]
    | cons c cs =>
      have hcs : cs.length ≤ n := by
        simp only [List.length_cons] at hl
        omega
      rw [stripGo]
      by_cases he : st.escapeNext
      · simp only [he, if_true]
        simp [List.count_cons, ih cs hcs]
      · simp only [he, if_false, Bool.false_eq_true]
        by_cases hn1 : (!st.inString && !st.inComment && !st.inMultilineComment) = true
        · simp only [hn1, if_true]
          by_cases hq : c = '"'
          · simp [hq, List.count_cons, ih cs hcs]
          · simp only [hq, if_false]
            by_cases hsl : c = '/' ∧ cs.head? = some '/'
            · obtain ⟨hc, hh⟩ := hsl
              cases cs with
              | nil => simp at hh
              | cons d cs2 =>
                simp only [List.head?_cons, Option.some.injEq] at hh
                have hcs2 : cs2.length ≤ n := by
                  simp only [List.length_cons] at hl
                  omega
                simp [hc, hh, List.count_cons, ih cs2 hcs2]
            · rw [if_neg (by simpa using hsl)]
              by_cases hbl : c = '/' ∧ cs.head? = some '*'
              · obtain ⟨hc, hh⟩ := hbl
                cases cs with
                | nil => simp at hh
                | cons d cs2 =>
                  simp only [List.head?_cons, Option.some.injEq] at hh
                  have hcs2 : cs2.length ≤ n := by
                    simp only [List.length_cons] at hl
                    omega
                  simp [hc, hh, List.count_cons, ih cs2 hcs2]
              · rw [if_neg (by simpa using hbl)]
                simp [List.count_cons, ih cs hcs]
        · simp only [hn1, if_false]
          by_cases hstr : st.inString = true
          · simp only [hstr, if_true]
            by_cases hbs : c = '\\'
            · simp [hbs, List.count_cons, ih cs hcs]
            · simp only [hbs, if_false]
              by_cases hq : c = '"'
              · simp [hq, List.count_cons, ih cs hcs]
              · simp [hq, List.count_cons, ih cs hcs]
          · simp only [hstr, if_false, Bool.false_eq_true]
            by_cases hcom : st.inComment = true
            · simp only [hcom, if_true]
              by_cases hnl : c = '\n'
              · simp [hnl, List.count_cons, ih cs hcs]
              · simp [hnl, List.count_cons, ih cs hcs]
            · simp only [hcom, if_false, Bool.false_eq_true]
              by_cases hcl : c = '*' ∧ cs.head? = some '/'
              · obtain ⟨hc, hh⟩ := hcl
                cases cs with
                | nil => simp at hh
                | cons d cs2 =>
                  simp only [List.head?_cons, Option.some.injEq] at hh
                  have hcs2 : cs2.length ≤ n := by
                    simp only [List.length_cons] at hl
                    omega
                  simp [hc, hh, List.count_cons, ih cs2 hcs2]
              · rw [if_neg (by simpa using hcl)]
                by_cases hnl : c = '\n'
                · simp [hnl, List.count_cons, ih cs hcs]
                · simp [hnl, List.count_cons, ih cs hcs]

/-- C4: comment stripping preserves line structure — for every input
string, `stripComments` yields a string with exactly the same number
of `'\n'` characters. -/
theorem C4_newline_count (s : List Char) :
    (stripComments s).count '\n' = s.count '\n' :=
  stripGo_count_aux s.length s (Nat.le_refl _) st0

/-! ### Strings survive, comments are stripped -/

theorem stripGo_string_body :
    ∀ n (b : List Char), b.length ≤ n → strBodyOk b = true → ∀ rest,
      stripGo ⟨true, false, false, false⟩ (b ++ '"' :: rest) =
        b ++ '"' :: stripGo st0 rest := by
  intro n
  induction n with
  | zero =>
    intro b hl hok rest
    have h0 : b = [] := List.length_eq_zero.mp (Nat.le_zero.mp hl)
    subst h0
    simp [stripGo, st0]
  | succ n ih =>
    intro b hl hok rest
    cases b with
    | nil => simp [stripGo, st0]
    | cons c b2 =>
      by_cases hbs : c = '\\'
      · subst hbs
        cases b2 with
        | nil =>
          rw [strBodyOk.eq_def] at hok
          simp at hok
        | cons d b3 =>
          rw [strBodyOk.eq_def] at hok
          simp at hok
          have hl3 : b3.length ≤ n := by
            simp only [List.length_cons] at hl
            omega
          have h1 : stripGo ⟨true, false, false, false⟩
              (('\\' :: d :: b3) ++ '"' :: rest) =
              '\\' :: d :: stripGo ⟨true, false, false, false⟩ (b3 ++ '"' :: rest) := by
            simp [stripGo]
          rw [h1, ih b3 hl3 hok rest]
          simp
      · by_cases hq : c = '"'
        · rw [strBodyOk.eq_def] at hok
          simp [hbs, hq] at hok
        · have hok2 : strBodyOk b2 = true := by
            rw [strBodyOk.eq_def] at hok
            simpa [hbs, hq] using hok
          have hl2 : b2.length ≤ n := by
            simp only [List.length_cons] at hl
            omega
          have h1 : stripGo ⟨true, false, false, false⟩
              ((c :: b2) ++ '"' :: rest) =
              c :: stripGo ⟨true, false, false, false⟩ (b2 ++ '"' :: rest) := by
            rw [List.cons_append, stripGo]
            simp [hbs, hq, Bool.false_eq_true]
          rw [h1, ih b2 hl2 hok2 rest]
          simp

theorem stripGo_line_body (b : List Char) (hb : '\n' ∉ b) (rest : List Char) :
    stripGo ⟨false, true, false, false⟩ (b ++ '\n' :: rest) =
      '\n' :: stripGo st0 rest := by
  induction b with
  | nil => simp [stripGo, st0]
  | cons c b2 ih =>
    simp only [List.mem_cons] at hb
    push_neg at hb
    have h1 : stripGo ⟨false, true, false, false⟩ ((c :: b2) ++ '\n' :: rest) =
        stripGo ⟨false, true, false, false⟩ (b2 ++ '\n' :: rest) := by
      rw [List.cons_append, stripGo]
      simp [Ne.symm hb.1, Bool.false_eq_true]
    rw [h1, ih hb.2]

theorem stripGo_block_body (b : List Char) (rest : List Char)
    (hb : blockBodyOk b = true) :
    stripGo ⟨false, false, true, false⟩ (b ++ '*' :: '/' :: rest) =
      b.filter (fun c => c = '\n') ++ stripGo st0 rest := by
  induction b with
  | nil => simp [stripGo, st0]
  | cons c b2 ih =>
    rw [blockBodyOk] at hb
    by_cases hstar : c = '*'
    · have hcond : ¬((decide (c = '*') && decide (b2.head? = some '/')) = true) := by
        intro hcon
        rw [if_pos hcon] at hb
        exact absurd hb (by simp)
      have hb2 : blockBodyOk b2 = true := by rwa [if_neg hcond] at hb
      have hh : ¬b2.head? = some '/' := by
        intro hcon
        exact hcond (by simp [hstar, hcon])
      subst hstar
      cases b2 with
      | nil =>
        have h1 : stripGo ⟨false, false, true, false⟩
            (('*' :: ([] : List Char)) ++ '*' :: '/' :: rest) =
            stripGo ⟨false, false, true, false⟩ ('*' :: '/' :: rest) := by
          rw [List.cons_append, stripGo]
          simp [Bool.false_eq_true]
        rw [h1]
        simpa using ih (by simp [blockBodyOk])
      | cons d b3 =>
        have hd : ¬d = '/' := by
          intro hcon
          exact hh (by simp [hcon])
        have h1 : stripGo ⟨false, false, true, false⟩
            (('*' :: d :: b3) ++ '*' :: '/' :: rest) =
            stripGo ⟨false, false, true, false⟩ ((d :: b3) ++ '*' :: '/' :: rest) := by
          rw [List.cons_append, stripGo]
          simp [hd, Bool.false_eq_true]
        rw [h1, ih hb2]
        simp
    · have hb2 : blockBodyOk b2 = true := by
        have hcond : ¬((decide (c = '*') && decide (b2.head? = some '/')) = true) := by
          simp [hstar]
        rwa [if_neg hcond] at hb
      by_cases hnl : c = '\n'
      · have h1 : stripGo ⟨false, false, true, false⟩ ((c :: b2) ++ '*' :: '/' :: rest) =
            c :: stripGo ⟨false, false, true, false⟩ (b2 ++ '*' :: '/' :: rest) := by
          rw [List.cons_append, stripGo]
          simp [hstar, hnl, Bool.false_eq_true]
        rw [h1, ih hb2]
        simp [hnl]
      · have h1 : stripGo ⟨false, false, true, false⟩ ((c :: b2) ++ '*' :: '/' :: rest) =
            stripGo ⟨false, false, true, false⟩ (b2 ++ '*' :: '/' :: rest) := by
          rw [List.cons_append, stripGo]
          simp [hstar, hnl, Bool.false_eq_true]
        rw [h1, ih hb2]
        simp [hnl]

theorem render_flatten_head (t : JTok) (ts : List JTok) :
    (((t :: ts).map JTok.render).flatten).head? = some t.headChar := by
  cases t <;> simp [JTok.render, JTok.headChar]

/-- C5: on any text that decomposes into well-formed string literals,
complete `//` and `/* */` comments and ordinary characters (in
particular any text with balanced double quotes), `stripComments`
keeps every string literal verbatim — comment-like substrings inside
strings are never stripped — and removes every comment outside
strings: a `//` comment up to its end-of-line and a `/* */` comment up
to its matching `*/`, keeping only the newlines. -/
theorem C5_strings_vs_comments (ts : List JTok) (h : toksOk ts = true) :
    stripComments ((ts.map JTok.render).flatten) =
      (ts.map JTok.stripped).flatten := by
  rw [stripComments]
  induction ts with
  | nil => simp [stripGo]
  | cons t ts ih =>
    cases t with
    | str b =>
      obtain ⟨hb, h3⟩ : strBodyOk b = true ∧ toksOk ts = true := by
        rw [toksOk] at h
        have h2 := h
        simp only [tokOk, adjOk, Bool.and_eq_true] at h2
        exact ⟨h2.1.1, h2.2⟩
      have ihr := ih h3
      simp only [List.map_cons, List.flatten_cons, JTok.render, JTok.stripped]
      have hassoc : ('"' :: b ++ ['"']) ++ ((ts.map JTok.render).flatten) =
          '"' :: (b ++ '"' :: (ts.map JTok.render).flatten) := by simp
      rw [hassoc]
      have hstep : stripGo st0 ('"' :: (b ++ '"' :: (ts.map JTok.render).flatten)) =
          '"' :: stripGo ⟨true, false, false, false⟩
            (b ++ '"' :: (ts.map JTok.render).flatten) := by
        rw [stripGo]
        simp [st0]
      rw [hstep, stripGo_string_body b.length b (Nat.le_refl _) hb _, ihr]
      simp
    | lineC b =>
      obtain ⟨hb0, h3⟩ : (!b.contains '\n') = true ∧ toksOk ts = true := by
        rw [toksOk] at h
        have h2 := h
        simp only [tokOk, adjOk, Bool.and_eq_true] at h2
        exact ⟨h2.1.1, h2.2⟩
      have hb : '\n' ∉ b := by simpa using hb0
      have ihr := ih h3
      simp only [List.map_cons, List.flatten_cons, JTok.render, JTok.stripped]
      have hassoc : ('/' :: '/' :: b ++ ['\n']) ++ ((ts.map JTok.render).flatten) =
          '/' :: '/' :: (b ++ '\n' :: (ts.map JTok.render).flatten) := by simp
      rw [hassoc]
      have hstep : stripGo st0
          ('/' :: '/' :: (b ++ '\n' :: (ts.map JTok.render).flatten)) =
          stripGo ⟨false, true, false, false⟩
            (b ++ '\n' :: (ts.map JTok.render).flatten) := by
        rw [stripGo]
        simp [st0]
      rw [hstep, stripGo_line_body b hb _, ihr]
      simp
    | blockC b =>
      obtain ⟨hb, h3⟩ : blockBodyOk b = true ∧ toksOk ts = true := by
        rw [toksOk] at h
        have h2 := h
        simp only [tokOk, adjOk, Bool.and_eq_true] at h2
        exact ⟨h2.1.1, h2.2⟩
      have ihr := ih h3
      simp only [List.map_cons, List.flatten_cons, JTok.render, JTok.stripped]
      have hassoc : ('/' :: '*' :: b ++ ['*', '/']) ++ ((ts.map JTok.render).flatten) =
          '/' :: '*' :: (b ++ '*' :: '/' :: (ts.map JTok.render).flatten) := by simp
      rw [hassoc]
      have hstep : stripGo st0
          ('/' :: '*' :: (b ++ '*' :: '/' :: (ts.map JTok.render).flatten)) =
          stripGo ⟨false, false, true, false⟩
            (b ++ '*' :: '/' :: (ts.map JTok.render).flatten) := by
        rw [stripGo]
        simp [st0]
      rw [hstep, stripGo_block_body b _ hb, ihr]
    | raw c =>
      cases ts with
      | nil =>
        have hc : ¬c = '"' := by
          rw [toksOk] at h
          have h2 := h
          simp only [tokOk, adjOk, Bool.and_eq_true] at h2
          simpa using h2.1.1
        have hL : ((JTok.raw c :: ([] : List JTok)).map JTok.render).flatten = [c] := by
          simp [JTok.render]
        have hR : ((JTok.raw c :: ([] : List JTok)).map JTok.stripped).flatten = [c] := by
          simp [JTok.stripped]
        rw [hL, hR, stripGo]
        simp [st0, hc, stripGo]
      | cons t2 ts2 =>
        rw [toksOk] at h
        simp only [Bool.and_eq_true] at h
        obtain ⟨⟨h1, hadj⟩, h3⟩ := h
        have hc : ¬c = '"' := by simpa [tokOk] using h1
        have ihr := ih h3
        have hhd := render_flatten_head t2 ts2
        have hL : ((JTok.raw c :: t2 :: ts2).map JTok.render).flatten =
            c :: ((t2 :: ts2).map JTok.render).flatten := by
          simp [JTok.render]
        have hR : ((JTok.raw c :: t2 :: ts2).map JTok.stripped).flatten =
            c :: ((t2 :: ts2).map JTok.stripped).flatten := by
          simp [JTok.stripped]
        rw [hL, hR]
        by_cases hsl : c = '/'
        · have hne : ¬t2.headChar = '/' ∧ ¬t2.headChar = '*' := by
            subst hsl
            simpa [adjOk] using hadj
          have hstep : stripGo st0 (c :: ((t2 :: ts2).map JTok.render).flatten) =
              c :: stripGo st0 (((t2 :: ts2).map JTok.render).flatten) := by
            rw [stripGo, hhd]
            simp [st0, hsl, hc, hne.1, hne.2]
          rw [hstep, ihr]
        · have hstep : stripGo st0 (c :: ((t2 :: ts2).map JTok.render).flatten) =
              c :: stripGo st0 (((t2 :: ts2).map JTok.render).flatten) := by
            rw [stripGo, hhd]
            simp [st0, hc, hsl]
          rw [hstep, ihr]

/-- Witness for C5: the scenario-B text `'\x7b"a": "http://x"\x7d'`,
whose comment-like `//` lies inside a string literal, is left
unchanged by `stripComments`. -/
theorem C5_witness :
    toksOk [JTok.raw '\x7b', JTok.str "a".toList, JTok.raw ':', JTok.raw ' ',
        JTok.str "http://x".toList, JTok.raw '\x7d'] = true ∧
      stripComments (([JTok.raw '\x7b', JTok.str "a".toList, JTok.raw ':',
          JTok.raw ' ', JTok.str "http://x".toList,
          JTok.raw '\x7d'].map JTok.render).flatten) =
        (([JTok.raw '\x7b', JTok.str "a".toList, JTok.raw ':', JTok.raw ' ',
          JTok.str "http://x".toList, JTok.raw '\x7d'].map JTok.stripped).flatten) :=
  ⟨by decide,
    C5_strings_vs_comments
      [JTok.raw '\x7b', JTok.str "a".toList, JTok.raw ':', JTok.raw ' ',
        JTok.str "http://x".toList, JTok.raw '\x7d'] (by decide)⟩

/-! ### Idempotence of the comment stripper -/

theorem stripGo_head_st0 (d : Char) (cs : List Char) (hd : ¬d = '/') :
    (stripGo ⟨false, false, false, false⟩ (d :: cs)).head? = some d := by
  rw [stripGo]
  by_cases hq : d = '"'
  · simp [hq]
  · simp [hq, hd, Bool.false_eq_true]

theorem cleanGo_stripGo_id :
    ∀ n (l : List Char), l.length ≤ n → ∀ (s e : Bool), (e = true → s = true) →
      cleanGo s e l = true → stripGo ⟨s, false, false, e⟩ l = l := by
  intro n
  induction n with
  | zero =>
    intro l hl s e _ _
    have h0 : l = [] := List.length_eq_zero.mp (Nat.le_zero.mp hl)
    subst h0
    simp [stripGo]
  | succ n ih =>
    intro l hl s e hse hclean
    cases l with
    | nil => simp [stripGo]
    | cons c cs =>
      have hcs : cs.length ≤ n := by
        simp only [List.length_cons] at hl
        omega
      cases e with
      | true =>
        have hs := hse rfl
        subst hs
        rw [cleanGo] at hclean
        simp only [if_true] at hclean
        have h1 : stripGo ⟨true, false, false, true⟩ (c :: cs) =
            c :: stripGo ⟨true, false, false, false⟩ cs := by
          rw [stripGo]
          simp
        rw [h1, ih cs hcs true false (by simp) (by simpa using hclean)]
      | false =>
        cases s with
        | true =>
          rw [cleanGo] at hclean
          by_cases hbs : c = '\\'
          · have hcl2 : cleanGo true true cs = true := by
              simpa [hbs] using hclean
            have h1 : stripGo ⟨true, false, false, false⟩ (c :: cs) =
                c :: stripGo ⟨true, false, false, true⟩ cs := by
              rw [stripGo]
              simp [hbs, Bool.false_eq_true]
            rw [h1, ih cs hcs true true (by simp) hcl2]
          · by_cases hq : c = '"'
            · have hcl2 : cleanGo false false cs = true := by
                simpa [hbs, hq] using hclean
              have h1 : stripGo ⟨true, false, false, false⟩ (c :: cs) =
                  c :: stripGo ⟨false, false, false, false⟩ cs := by
                rw [stripGo]
                simp [hbs, hq, Bool.false_eq_true]
              rw [h1, ih cs hcs false false (by simp) hcl2]
            · have hcl2 : cleanGo true false cs = true := by
                simpa [hbs, hq] using hclean
              have h1 : stripGo ⟨true, false, false, false⟩ (c :: cs) =
                  c :: stripGo ⟨true, false, false, false⟩ cs := by
                rw [stripGo]
                simp [hbs, hq, Bool.false_eq_true]
              rw [h1, ih cs hcs true false (by simp) hcl2]
        | false =>
          rw [cleanGo] at hclean
          by_cases hq : c = '"'
          · have hcl2 : cleanGo true false cs = true := by
              simpa [hq] using hclean
            have h1 : stripGo ⟨false, false, false, false⟩ (c :: cs) =
                c :: stripGo ⟨true, false, false, false⟩ cs := by
              rw [stripGo]
              simp [hq]
            rw [h1, ih cs hcs true false (by simp) hcl2]
          · by_cases hsl : c = '/'
            · have hh : ¬cs.head? = some '/' ∧ ¬cs.head? = some '*' := by
                by_contra hcon
                push_neg at hcon
                rcases Decidable.em (cs.head? = some '/') with h7 | h7
                · simp [hq, hsl, h7] at hclean
                · simp [hq, hsl, h7, hcon h7] at hclean
              have hcl2 : cleanGo false false cs = true := by
                simpa [hq, hsl, hh.1, hh.2] using hclean
              have h1 : stripGo ⟨false, false, false, false⟩ (c :: cs) =
                  c :: stripGo ⟨false, false, false, false⟩ cs := by
                rw [stripGo]
                simp [hq, hsl, hh.1, hh.2, Bool.false_eq_true]
              rw [h1, ih cs hcs false false (by simp) hcl2]
            · have hcl2 : cleanGo false false cs = true := by
                simpa [hq, hsl] using hclean
              have h1 : stripGo ⟨false, false, false, false⟩ (c :: cs) =
                  c :: stripGo ⟨false, false, false, false⟩ cs := by
                rw [stripGo]
                simp [hq, hsl, Bool.false_eq_true]
              rw [h1, ih cs hcs false false (by simp) hcl2]

theorem stripGo_output_clean :
    ∀ n (l : List Char), l.length ≤ n →
      ∀ (sS sC sM sE : Bool), (sE = true → sS = true) →
      cleanGo sS (sS && sE) (stripGo ⟨sS, sC, sM, sE⟩ l) = true := by
  intro n
  induction n with
  | zero =>
    intro l hl sS sC sM sE _
    have h0 : l = [] := List.length_eq_zero.mp (Nat.le_zero.mp hl)
    subst h0
    simp [stripGo, cleanGo]
  | succ n ih =>
    intro l hl sS sC sM sE hse
    cases l with
    | nil => simp [stripGo, cleanGo]
    | cons c cs =>
      have hcs : cs.length ≤ n := by
        simp only [List.length_cons] at hl
        omega
      cases sE with
      | true =>
        have hs := hse rfl
        subst hs
        have h1 : stripGo ⟨true, sC, sM, true⟩ (c :: cs) =
            c :: stripGo ⟨true, sC, sM, false⟩ cs := by
          rw [stripGo]
          simp
        rw [h1, cleanGo]
        simpa using ih cs hcs true sC sM false (by simp)
      | false =>
        cases sS with
        | true =>
          by_cases hbs : c = '\\'
          · have h1 : stripGo ⟨true, sC, sM, false⟩ (c :: cs) =
                c :: stripGo ⟨true, sC, sM, true⟩ cs := by
              rw [stripGo]
              simp [hbs, Bool.false_eq_true]
            rw [h1, cleanGo]
            simp only [hbs, if_true]
            simpa using ih cs hcs true sC sM true (by simp)
          · by_cases hq : c = '"'
            · have h1 : stripGo ⟨true, sC, sM, false⟩ (c :: cs) =
                  c :: stripGo ⟨false, sC, sM, false⟩ cs := by
                rw [stripGo]
                simp [hbs, hq, Bool.false_eq_true]
              rw [h1, cleanGo]
              simp only [hbs, hq, if_true, if_false]
              simpa using ih cs hcs false sC sM false (by simp)
            · have h1 : stripGo ⟨true, sC, sM, false⟩ (c :: cs) =
                  c :: stripGo ⟨true, sC, sM, false⟩ cs := by
                rw [stripGo]
                simp [hbs, hq, Bool.false_eq_true]
              rw [h1, cleanGo]
              simp only [hbs, hq, if_false]
              simpa using ih cs hcs true sC sM false (by simp)
        | false =>
          cases sC with
          | true =>
            by_cases hnl : c = '\n'
            · have h1 : stripGo ⟨false, true, sM, false⟩ (c :: cs) =
                  c :: stripGo ⟨false, false, sM, false⟩ cs := by
                rw [stripGo]
                simp [hnl, Bool.false_eq_true]
              rw [h1, cleanGo]
              simp only [hnl]
              simpa using ih cs hcs false false sM false (by simp)
            · have h1 : stripGo ⟨false, true, sM, false⟩ (c :: cs) =
                  stripGo ⟨false, true, sM, false⟩ cs := by
                rw [stripGo]
                simp [hnl, Bool.false_eq_true]
              rw [h1]
              exact ih cs hcs false true sM false (by simp)
          | false =>
            cases sM with
            | true =>
              by_cases hcl : c = '*' ∧ cs.head? = some '/'
              · obtain ⟨hc1, hc2⟩ := hcl
                cases cs with
                | nil => simp at hc2
                | cons d cs2 =>
                  simp only [List.head?_cons, Option.some.injEq] at hc2
                  have hcs2 : cs2.length ≤ n := by
                    simp only [List.length_cons] at hl
                    omega
                  have h1 : stripGo ⟨false, false, true, false⟩ (c :: d :: cs2) =
                      stripGo ⟨false, false, false, false⟩ cs2 := by
                    rw [stripGo]
                    simp [hc1, hc2, Bool.false_eq_true]
                  rw [h1]
                  exact ih cs2 hcs2 false false false false (by simp)
              · by_cases hnl : c = '\n'
                · have h1 : stripGo ⟨false, false, true, false⟩ (c :: cs) =
                      c :: stripGo ⟨false, false, true, false⟩ cs := by
                    rw [stripGo]
                    simp [hnl, Bool.false_eq_true]
                  rw [h1, cleanGo]
                  simp only [hnl]
                  simpa using ih cs hcs false false true false (by simp)
                · have h1 : stripGo ⟨false, false, true, false⟩ (c :: cs) =
                      stripGo ⟨false, false, true, false⟩ cs := by
                    rw [stripGo]
                    by_cases hstar : c = '*'
                    · simp [hstar, hnl,
                        (by simpa [hstar] using hcl : ¬cs.head? = some '/'),
                        Bool.false_eq_true]
                    · simp [hstar, hnl, Bool.false_eq_true]
                  rw [h1]
                  exact ih cs hcs false false true false (by simp)
            | false =>
              by_cases hq : c = '"'
              · have h1 : stripGo ⟨false, false, false, false⟩ (c :: cs) =
                    c :: stripGo ⟨true, false, false, false⟩ cs := by
                  rw [stripGo]
                  simp [hq]
                rw [h1, cleanGo]
                simp only [hq, if_true]
                simpa using ih cs hcs true false false false (by simp)
              · by_cases hs1 : c = '/' ∧ cs.head? = some '/'
                · obtain ⟨hc1, hc2⟩ := hs1
                  cases cs with
                  | nil => simp at hc2
                  | cons d cs2 =>
                    simp only [List.head?_cons, Option.some.injEq] at hc2
                    have hcs2 : cs2.length ≤ n := by
                      simp only [List.length_cons] at hl
                      omega
                    have h1 : stripGo ⟨false, false, false, false⟩ (c :: d :: cs2) =
                        stripGo ⟨false, true, false, false⟩ cs2 := by
                      rw [stripGo]
                      simp [hc1, hc2, Bool.false_eq_true]
                    rw [h1]
                    exact ih cs2 hcs2 false true false false (by simp)
                · by_cases hs2 : c = '/' ∧ cs.head? = some '*'
                  · obtain ⟨hc1, hc2⟩ := hs2
                    cases cs with
                    | nil => simp at hc2
                    | cons d cs2 =>
                      simp only [List.head?_cons, Option.some.injEq] at hc2
                      have hcs2 : cs2.length ≤ n := by
                        simp only [List.length_cons] at hl
                        omega
                      have h1 : stripGo ⟨false, false, false, false⟩ (c :: d :: cs2) =
                          stripGo ⟨false, false, true, false⟩ cs2 := by
                        rw [stripGo]
                        simp [hc1, hc2, (by simp [hc2] : ¬d = '/'),
                          Bool.false_eq_true]
                      rw [h1]
                      exact ih cs2 hcs2 false false true false (by simp)
                  · have h1 : stripGo ⟨false, false, false, false⟩ (c :: cs) =
                        c :: stripGo ⟨false, false, false, false⟩ cs := by
                      rw [stripGo]
                      by_cases hsl : c = '/'
                      · simp [hq, hsl,
                          (by simpa [hsl] using hs1 : ¬cs.head? = some '/'),
                          (by simpa [hsl] using hs2 : ¬cs.head? = some '*'),
                          Bool.false_eq_true]
                      · simp [hq, hsl, Bool.false_eq_true]
                    have h2 : cleanGo false false
                        (c :: stripGo ⟨false, false, false, false⟩ cs) =
                        cleanGo false false (stripGo ⟨false, false, false, false⟩ cs) := by
                      rw [cleanGo]
                      by_cases hsl : c = '/'
                      · have hh1 : ¬cs.head? = some '/' := by simpa [hsl] using hs1
                        have hh2 : ¬cs.head? = some '*' := by simpa [hsl] using hs2
                        have hhead : ¬(stripGo ⟨false, false, false, false⟩ cs).head? = some '/' ∧
                            ¬(stripGo ⟨false, false, false, false⟩ cs).head? = some '*' := by
                          cases cs with
                          | nil => simp [stripGo]
                          | cons d cs2 =>
                            have hd : ¬d = '/' := by
                              intro hcon
                              exact hh1 (by simp [hcon])
                            rw [stripGo_head_st0 d cs2 hd]
                            constructor
                            · intro hcon
                              exact hh1 (by simpa using hcon)
                            · intro hcon
                              exact hh2 (by simpa using hcon)
                        simp [hq, hsl, hhead.1, hhead.2]
                      · simp [hq, hsl]
                    rw [h1]
                    have h0 : (false && false) = false := rfl
                    rw [h0, h2]
                    simpa using ih cs hcs false false false false (by simp)

/-- C10: `stripComments` is idempotent — stripping a second time
changes nothing, because the output of a first pass never contains a
`//` or `/*` opener outside a string literal. -/
theorem C10_stripComments_idempotent (s : List Char) :
    stripComments (stripComments s) = stripComments s := by
  have hclean : cleanGo false false (stripGo st0 s) = true := by
    simpa using stripGo_output_clean s.length s (Nat.le_refl _)
      false false false false (by simp)
  unfold stripComments
  exact cleanGo_stripGo_id (stripGo st0 s).length _ (Nat.le_refl _)
    false false (by simp) hclean

end EffectJson
